import Mathlib

/-!
# Verification of the varuna pipeline-parallel training core

This file gives a shallow embedding, in Lean 4, of the parts of the
`varuna` repository (`src/varuna/varuna.py` and
`src/varuna/partitioned_model.py`) that the specification's claims are
about, together with theorems settling each claim.

Conventions of the embedding:
* Python lists become Lean `List`s; Python dicts become association lists
  (insertion ordered, as CPython dicts are).
* Tensors are abstracted to the data the claims inspect: a shape
  (`List Nat`), a leading-dimension slicing view (`List α` of rows), or a
  constant-filled tensor (`ConstTensor`, shape plus fill value), which is
  enough to state facts about `torch.ones`.
* Blocking queue operations become explicit list manipulation; an
  operation that would block forever on an empty queue, or a Python
  runtime error (`IndexError`, `AssertionError`, `ValueError`), is
  an `Option`/`Except` failure.
* Randomness is abstracted: an RNG state is a `Nat`, and running the
  model advances it through an arbitrary function `modelRng`, so that
  capture/restore of RNG states is observable.
-/

namespace Varuna

/-! ## Tensor abstractions -/

/-- A tensor about which only the shape and a constant fill value are
tracked.  `torch.ones(shape)` becomes `torchOnes shape`. -/
structure ConstTensor where
  shape : List Nat
  val : ℚ
  deriving DecidableEq, Repr

/-- Embedding of `torch.ones(shape)`: every entry is `1`. -/
def torchOnes (shape : List Nat) : ConstTensor := ⟨shape, 1⟩

/-- Embedding of `tensor.split(chunk_size)` along the leading dimension
(`src/varuna/varuna.py`, `scatter`): the rows of the tensor, grouped in
chunks of `cs` rows, the last chunk possibly smaller.  `torch` rejects a
non-positive split size; the `cs = 0` case here returns `[]` and is never
used under the claims' `cs > 0` hypothesis. -/
def torchSplit (cs : Nat) : List α → List (List α)
  | [] => []
  | a :: rest =>
    if h : cs = 0 then []
    else (a :: rest).take cs :: torchSplit cs ((a :: rest).drop cs)
termination_by v => v.length
decreasing_by
  simp only [List.length_drop]
  exact Nat.sub_lt (by simp) (Nat.pos_of_ne_zero h)

theorem torchSplit_nil (cs : Nat) : torchSplit cs ([] : List α) = [] := by
  rw [torchSplit]

theorem torchSplit_cons (cs : Nat) (hcs : cs ≠ 0) (v : List α) (hv : v ≠ []) :
    torchSplit cs v = v.take cs :: torchSplit cs (v.drop cs) := by
  match v, hv with
  | a :: rest, _ => rw [torchSplit]; simp [hcs]

theorem drop_length_lt (cs : Nat) (hcs : cs ≠ 0) (v : List α) (hv : v ≠ []) :
    (v.drop cs).length < v.length := by
  simp only [List.length_drop]
  exact Nat.sub_lt (List.length_pos.mpr hv) (Nat.pos_of_ne_zero hcs)

/-- Concatenating the chunks of `torchSplit` gives back the original
list. -/
theorem torchSplit_flatten (cs : Nat) (hcs : cs ≠ 0) (v : List α) :
    (torchSplit cs v).flatten = v := by
  generalize hn : v.length = n
  induction n using Nat.strong_induction_on generalizing v with
  | _ n ih =>
    by_cases hv : v = []
    · subst hv; simp [torchSplit_nil]
    · rw [torchSplit_cons cs hcs v hv]
      subst hn
      rw [List.flatten_cons,
        ih (v.drop cs).length (drop_length_lt cs hcs v hv) (v.drop cs) rfl,
        List.take_append_drop]

/-- Each chunk produced by `torchSplit` is the corresponding window of
the original list: chunk `j` holds rows `cs*j` to `cs*j + cs - 1`. -/
theorem torchSplit_getElem (cs : Nat) (hcs : cs ≠ 0) (v : List α) (j : Nat)
    (hj : j < (torchSplit cs v).length) :
    (torchSplit cs v)[j] = (v.drop (cs * j)).take cs := by
  generalize hn : v.length = n
  induction n using Nat.strong_induction_on generalizing v j with
  | _ n ih =>
    by_cases hv : v = []
    · subst hv; simp [torchSplit_nil] at hj
    · have heq := torchSplit_cons cs hcs v hv
      rcases j with _ | j'
      · simp [heq]
      · subst hn
        have hj' : j' < (torchSplit cs (v.drop cs)).length := by
          have := hj
          simp only [heq, List.length_cons] at this
          omega
        have hstep : (torchSplit cs v)[j' + 1] =
            (torchSplit cs (v.drop cs))[j'] := by
          simp [heq]
        rw [hstep,
          ih (v.drop cs).length (drop_length_lt cs hcs v hv) (v.drop cs) j' hj' rfl,
          List.drop_drop]
        congr 2
        ring

/-- The number of chunks `torchSplit` produces covers the list exactly:
one chunk fewer would not reach the end of the list, and the produced
chunks do. -/
theorem torchSplit_length_spec (cs : Nat) (hcs : cs ≠ 0) (v : List α)
    (hv : v ≠ []) :
    cs * ((torchSplit cs v).length - 1) < v.length ∧
      v.length ≤ cs * (torchSplit cs v).length := by
  generalize hn : v.length = n
  induction n using Nat.strong_induction_on generalizing v with
  | _ n ih =>
    rw [torchSplit_cons cs hcs v hv]
    by_cases hd : v.drop cs = []
    · have hl : v.length - cs = 0 := by
        simpa using congrArg List.length hd
      subst hn
      simp only [hd, torchSplit_nil, List.length_cons, List.length_nil]
      constructor
      · simpa using List.length_pos.mpr hv
      · simpa using Nat.le_of_sub_eq_zero hl
    · subst hn
      obtain ⟨h1, h2⟩ :=
        ih (v.drop cs).length (drop_length_lt cs hcs v hv) (v.drop cs) hd rfl
      simp only [List.length_drop] at h1 h2
      have hne : (torchSplit cs (v.drop cs)).length ≠ 0 := by
        intro h0
        rw [torchSplit_cons cs hcs _ hd] at h0
        simp at h0
      obtain ⟨m, hm⟩ := Nat.exists_eq_succ_of_ne_zero hne
      rw [hm] at h1 h2
      simp only [Nat.succ_eq_add_one, Nat.add_sub_cancel] at h1 h2
      have hcsle : cs < v.length := by
        have hne2 : (v.drop cs).length ≠ 0 :=
          fun h => hd (List.eq_nil_of_length_eq_zero h)
        simp only [List.length_drop] at hne2
        omega
      simp only [List.length_cons, hm, Nat.succ_eq_add_one, Nat.add_sub_cancel]
      have e1 : cs * (m + 1) = cs * m + cs := by ring
      have e2 : cs * (m + 1 + 1) = cs * (m + 1) + cs := by ring
      constructor
      · omega
      · omega

/-! ## `scatter` (src/varuna/varuna.py)

`scatter(input, chunk_size)` takes the dictionary of named full-batch
tensors and splits each value independently with
`v.split(chunk_size)`, filing chunk `i` of each tensor under its name in
`microbatches[i]` (appending a fresh dict whenever `i` reaches the end of
the list).  A Python dict becomes an insertion-ordered association
list. -/

/-- One microbatch: the Python dict mapping input names to tensor
slices. -/
abbrev Microbatch (α : Type _) := List (String × List α)

/-- The body `if len(microbatches) <= i: microbatches.append(dict())`
followed by `microbatches[i][k] = value` from `scatter`.  The key `k` is
fresh in each dict (one outer-loop iteration per distinct dict key), so
dict assignment is an append. -/
def placeChunk (mbs : List (Microbatch α)) (i : Nat) (k : String)
    (c : List α) : List (Microbatch α) :=
  if i < mbs.length then mbs.set i (mbs.getD i [] ++ [(k, c)])
  else mbs ++ [[(k, c)]]

/-- The inner `for i, value in enumerate(chunked_values)` loop of
`scatter`. -/
def placeChunks (k : String) : List (List α) → Nat → List (Microbatch α) →
    List (Microbatch α)
  | [], _, mbs => mbs
  | c :: rest, i, mbs => placeChunks k rest (i + 1) (placeChunk mbs i k c)

/-- Embedding of `scatter` (`src/varuna/varuna.py`): split every named
input tensor into leading-dimension chunks of `chunkSize` and regroup
the chunks by microbatch index. -/
def scatter (input : List (String × List α)) (chunkSize : Nat) :
    List (Microbatch α) :=
  input.foldl
    (fun mbs kv => placeChunks kv.1 (torchSplit chunkSize kv.2) 0 mbs) []

/-- Proof-side restatement of the placement loop: consume the chunk list
and the microbatch list in lockstep, appending fresh dicts when the
microbatch list runs out. -/
def placeAll (k : String) : List (List α) → List (Microbatch α) →
    List (Microbatch α)
  | [], mbs => mbs
  | c :: rest, [] => [(k, c)] :: placeAll k rest []
  | c :: rest, mb :: mbs => (mb ++ [(k, c)]) :: placeAll k rest mbs

theorem placeChunk_split (mbs : List (Microbatch α)) (i : Nat) (k : String)
    (c : List α) :
    placeChunk mbs i k c = mbs.take i ++ placeChunk (mbs.drop i) 0 k c := by
  by_cases h : i < mbs.length
  · have hcons := List.drop_eq_getElem_cons h
    have hget : mbs.getD i [] = mbs[i] := by
      rw [List.getD_eq_getElem?_getD, List.getElem?_eq_getElem h]
      rfl
    have h0 : (0 : Nat) < (mbs.drop i).length := by
      simp only [List.length_drop]; omega
    rw [placeChunk, if_pos h, hget, List.set_eq_take_cons_drop _ h,
      placeChunk, if_pos h0, hcons]
    simp only [List.getD_cons_zero, List.set_cons_zero]
  · have hd : mbs.drop i = [] := List.drop_eq_nil_of_le (by omega)
    rw [placeChunk, if_neg h, placeChunk, hd]
    simp [List.take_of_length_le (by omega : mbs.length ≤ i)]

theorem placeChunk_zero_nil (k : String) (c : List α) :
    placeChunk ([] : List (Microbatch α)) 0 k c = [[(k, c)]] := by
  simp [placeChunk]

theorem placeChunk_zero_cons (k : String) (c : List α) (mb : Microbatch α)
    (mbs : List (Microbatch α)) :
    placeChunk (mb :: mbs) 0 k c = (mb ++ [(k, c)]) :: mbs := by
  simp [placeChunk]

theorem placeChunks_eq_placeAll (k : String) :
    ∀ (cs : List (List α)) (i : Nat) (mbs : List (Microbatch α)),
      placeChunks k cs i mbs = mbs.take i ++ placeAll k cs (mbs.drop i)
  | [], i, mbs => by
    simp [placeChunks, placeAll]
  | c :: rest, i, mbs => by
    rw [placeChunks, placeChunks_eq_placeAll k rest (i + 1) (placeChunk mbs i k c),
      placeChunk_split]
    rcases hm : mbs.drop i with _ | ⟨mb, mbs'⟩
    · have hlen : mbs.length ≤ i := by
        have hh := congrArg List.length hm
        simp only [List.length_drop, List.length_nil] at hh
        omega
      have htk : mbs.take i = mbs := List.take_of_length_le hlen
      rw [htk, placeAll, placeChunk_zero_nil]
      rw [List.take_of_length_le (by simp; omega),
        List.drop_eq_nil_of_le (by simp; omega)]
      simp [placeAll]
    · have hi : i < mbs.length := by
        by_contra hge
        rw [List.drop_eq_nil_of_le (by omega)] at hm
        exact List.noConfusion hm
      rw [placeChunk_zero_cons]
      have hti : (mbs.take i).length = i := by
        simp [List.length_take, Nat.min_eq_left (Nat.le_of_lt hi)]
      have htake : ((mbs.take i ++ (mb ++ [(k, c)]) :: mbs')).take (i + 1) =
          mbs.take i ++ [mb ++ [(k, c)]] := by
        rw [List.take_append_eq_append_take, hti,
          List.take_of_length_le (by rw [hti]; omega)]
        simp
      have hdrop : ((mbs.take i ++ (mb ++ [(k, c)]) :: mbs')).drop (i + 1) = mbs' := by
        rw [List.drop_append_eq_append_drop, hti,
          List.drop_eq_nil_of_le (by rw [hti]; omega)]
        simp
      rw [htake, hdrop, placeAll]
      simp

/-- `mbs.filterMap (·.lookup k)`: the ordered list of slices filed under
name `k` across the microbatch dicts. -/
def slicesFor (k : String) (mbs : List (Microbatch α)) : List (List α) :=
  mbs.filterMap (fun mb => mb.lookup k)

theorem lookup_append_right (k : String) (mb l : Microbatch α)
    (h : mb.lookup k = none) : (mb ++ l).lookup k = l.lookup k := by
  induction mb with
  | nil => simp
  | cons a mb ih =>
    rcases a with ⟨k0, c0⟩
    by_cases hk : k = k0
    · subst hk; simp [List.lookup] at h
    · simp only [List.cons_append, List.lookup,
        beq_false_of_ne hk, cond_false] at h ⊢
      exact ih h

theorem lookup_append_of_ne (k k' : String) (mb : Microbatch α) (c : List α)
    (h : k' ≠ k) : (mb ++ [(k, c)]).lookup k' = mb.lookup k' := by
  induction mb with
  | nil => simp [List.lookup, beq_false_of_ne h]
  | cons a mb ih =>
    rcases a with ⟨k0, c0⟩
    by_cases hk : k' = k0
    · subst hk; simp [List.lookup]
    · simp only [List.cons_append, List.lookup,
        beq_false_of_ne hk, cond_false]
      exact ih

/-- `k` appears in none of the microbatch dicts. -/
def FreshKey (k : String) (mbs : List (Microbatch α)) : Prop :=
  ∀ mb ∈ mbs, mb.lookup k = none

theorem slicesFor_of_fresh (k : String) (mbs : List (Microbatch α))
    (h : FreshKey k mbs) : slicesFor k mbs = [] := by
  induction mbs with
  | nil => rfl
  | cons mb mbs ih =>
    simp only [slicesFor, List.filterMap_cons, h mb (by simp)]
    exact ih (fun m hm => h m (by simp [hm]))

theorem slicesFor_placeAll_self (k : String) (cs : List (List α)) :
    ∀ (mbs : List (Microbatch α)), FreshKey k mbs →
      slicesFor k (placeAll k cs mbs) = cs := by
  induction cs with
  | nil => intro mbs h; rw [placeAll]; exact slicesFor_of_fresh k mbs h
  | cons c rest ih =>
    intro mbs h
    rcases mbs with _ | ⟨mb, mbs'⟩
    · rw [placeAll]
      simp only [slicesFor, List.filterMap_cons]
      have : List.lookup k [(k, c)] = some c := by simp [List.lookup]
      rw [this]
      have := ih [] (by intro m hm; simp at hm)
      simp only [slicesFor] at this
      rw [this]
    · rw [placeAll]
      simp only [slicesFor, List.filterMap_cons]
      have hmb : mb.lookup k = none := h mb (by simp)
      have : (mb ++ [(k, c)]).lookup k = some c := by
        rw [lookup_append_right k mb _ hmb]; simp [List.lookup]
      rw [this]
      have := ih mbs' (fun m hm => h m (by simp [hm]))
      simp only [slicesFor] at this
      rw [this]

theorem slicesFor_placeAll_other (k k' : String) (h : k' ≠ k)
    (cs : List (List α)) :
    ∀ (mbs : List (Microbatch α)),
      slicesFor k' (placeAll k cs mbs) = slicesFor k' mbs := by
  induction cs with
  | nil => intro mbs; rw [placeAll]
  | cons c rest ih =>
    intro mbs
    rcases mbs with _ | ⟨mb, mbs'⟩
    · rw [placeAll]
      simp only [slicesFor, List.filterMap_cons]
      have : List.lookup k' [(k, c)] = none := by
        simp [List.lookup, beq_false_of_ne h]
      rw [this]
      exact ih []
    · rw [placeAll]
      simp only [slicesFor, List.filterMap_cons,
        lookup_append_of_ne k k' mb c h]
      have := ih mbs'
      simp only [slicesFor] at this
      rw [this]

theorem freshKey_placeAll (k k'' : String) (h : k'' ≠ k)
    (cs : List (List α)) :
    ∀ (mbs : List (Microbatch α)), FreshKey k'' mbs →
      FreshKey k'' (placeAll k cs mbs) := by
  induction cs with
  | nil => intro mbs hf; rw [placeAll]; exact hf
  | cons c rest ih =>
    intro mbs hf
    rcases mbs with _ | ⟨mb, mbs'⟩
    · rw [placeAll]
      intro m hm
      rcases List.mem_cons.mp hm with hm | hm
      · subst hm; simp [List.lookup, beq_false_of_ne h]
      · exact ih [] (by intro x hx; simp at hx) m hm
    · rw [placeAll]
      intro m hm
      rcases List.mem_cons.mp hm with hm | hm
      · subst hm
        rw [lookup_append_of_ne k k'' mb c h]
        exact hf mb (by simp)
      · exact ih mbs' (fun x hx => hf x (by simp [hx])) m hm

theorem scatter_fold_preserve (cs : Nat) (k : String) :
    ∀ (items : List (String × List α)) (mbs : List (Microbatch α)),
      (∀ kv ∈ items, kv.1 ≠ k) →
      slicesFor k (items.foldl
          (fun m kv => placeChunks kv.1 (torchSplit cs kv.2) 0 m) mbs) =
        slicesFor k mbs
  | [], _, _ => rfl
  | (k0, v0) :: rest, mbs, h => by
    simp only [List.foldl_cons]
    rw [scatter_fold_preserve cs k rest _ (fun kv hkv => h kv (by simp [hkv])),
      placeChunks_eq_placeAll]
    simp only [List.take_zero, List.drop_zero, List.nil_append]
    exact slicesFor_placeAll_other k0 k
      (fun he => (h (k0, v0) (by simp)) he.symm) (torchSplit cs v0) mbs

theorem scatter_slices_aux (cs : Nat) :
    ∀ (items : List (String × List α)) (mbs : List (Microbatch α))
      (k : String) (v : List α),
      (k, v) ∈ items → (items.map Prod.fst).Nodup → FreshKey k mbs →
      slicesFor k (items.foldl
          (fun m kv => placeChunks kv.1 (torchSplit cs kv.2) 0 m) mbs) =
        torchSplit cs v
  | [], _, _, _, hin, _, _ => absurd hin (by simp)
  | (k0, v0) :: rest, mbs, k, v, hin, hnd, hfresh => by
    simp only [List.foldl_cons]
    have hbridge : placeChunks k0 (torchSplit cs v0) 0 mbs =
        placeAll k0 (torchSplit cs v0) mbs := by
      rw [placeChunks_eq_placeAll]
      simp
    rcases List.mem_cons.mp hin with hh | hh
    · obtain ⟨hk, hv⟩ := Prod.mk.injEq .. ▸ hh
      subst hk; subst hv
      have hknotin : ∀ kv ∈ rest, kv.1 ≠ k := by
        intro kv hkv he
        have : k ∈ rest.map Prod.fst := he ▸ List.mem_map_of_mem Prod.fst hkv
        simp only [List.map_cons, List.nodup_cons] at hnd
        exact hnd.1 this
      rw [scatter_fold_preserve cs k rest _ hknotin, hbridge]
      exact slicesFor_placeAll_self k (torchSplit cs v) mbs hfresh
    · have hkne : k ≠ k0 := by
        intro he
        subst he
        simp only [List.map_cons, List.nodup_cons] at hnd
        exact hnd.1 (List.mem_map_of_mem Prod.fst hh)
      rw [hbridge] at *
      exact scatter_slices_aux cs rest _ k v hh
        (by simp only [List.map_cons, List.nodup_cons] at hnd; exact hnd.2)
        (freshKey_placeAll k0 k hkne (torchSplit cs v0) mbs hfresh)

/-- C8 core lemma: in the output of `scatter`, the slices filed under
each input name are exactly the `torchSplit` chunks of that name's
tensor. -/
theorem scatter_slicesFor (input : List (String × List α)) (cs : Nat)
    (hnd : (input.map Prod.fst).Nodup) (k : String) (v : List α)
    (hin : (k, v) ∈ input) :
    slicesFor k (scatter input cs) = torchSplit cs v :=
  scatter_slices_aux cs input [] k v hin hnd (fun _ hm => absurd hm (by simp))

/-- C8: `scatter` splits every named input tensor independently into
chunks of the fixed microbatch size along its leading dimension, the
last chunk smaller when the batch size is not divisible, and the split
is a round-trip: concatenating the per-microbatch slices of each named
tensor in order reproduces the original batch tensor exactly, including
the correctly sized remainder chunk. -/
theorem C8_scatter_roundtrip (input : List (String × List α)) (cs : Nat)
    (hcs : cs ≠ 0) (hnd : (input.map Prod.fst).Nodup) (k : String)
    (v : List α) (hin : (k, v) ∈ input) :
    (slicesFor k (scatter input cs)).flatten = v ∧
    (∀ j, ∀ hj : j < (slicesFor k (scatter input cs)).length,
      (slicesFor k (scatter input cs))[j] = (v.drop (cs * j)).take cs ∧
      (slicesFor k (scatter input cs))[j].length = min cs (v.length - cs * j)) ∧
    (v ≠ [] → cs * ((slicesFor k (scatter input cs)).length - 1) < v.length ∧
      v.length ≤ cs * (slicesFor k (scatter input cs)).length) := by
  have hs := scatter_slicesFor input cs hnd k v hin
  refine ⟨?_, ?_, ?_⟩
  · rw [hs]; exact torchSplit_flatten cs hcs v
  · intro j hj
    rw [List.getElem_of_eq hs hj]
    have hj' : j < (torchSplit cs v).length := by rw [← hs]; exact hj
    constructor
    · exact torchSplit_getElem cs hcs v j hj'
    · rw [torchSplit_getElem cs hcs v j hj']
      simp [List.length_take, List.length_drop]
  · intro hv
    rw [hs]
    exact torchSplit_length_spec cs hcs v hv

/-- Witness for C8 at the spec's concrete scenario: batch size 7 with
microbatch size 2 gives three full chunks and a remainder of size 1. -/
theorem C8_scatter_roundtrip_witness :
    (slicesFor "x" (scatter [("x", [10, 20, 30, 40, 50, 60, 70])] 2)).flatten =
        [10, 20, 30, 40, 50, 60, 70] ∧
    (∀ j, ∀ hj : j < (slicesFor "x"
        (scatter [("x", [10, 20, 30, 40, 50, 60, 70])] 2)).length,
      (slicesFor "x" (scatter [("x", [10, 20, 30, 40, 50, 60, 70])] 2))[j] =
        (([10, 20, 30, 40, 50, 60, 70] : List Nat).drop (2 * j)).take 2 ∧
      (slicesFor "x" (scatter [("x", [10, 20, 30, 40, 50, 60, 70])] 2))[j].length =
        min 2 (([10, 20, 30, 40, 50, 60, 70] : List Nat).length - 2 * j)) ∧
    (([10, 20, 30, 40, 50, 60, 70] : List Nat) ≠ [] →
      2 * ((slicesFor "x"
          (scatter [("x", [10, 20, 30, 40, 50, 60, 70])] 2)).length - 1) <
        ([10, 20, 30, 40, 50, 60, 70] : List Nat).length ∧
      ([10, 20, 30, 40, 50, 60, 70] : List Nat).length ≤
        2 * (slicesFor "x"
          (scatter [("x", [10, 20, 30, 40, 50, 60, 70])] 2)).length) :=
  C8_scatter_roundtrip [("x", [10, 20, 30, 40, 50, 60, 70])] 2
    (by decide) (by simp) "x" [10, 20, 30, 40, 50, 60, 70] (by simp)

/-! ## Stage-to-cut validation (src/varuna/partitioned_model.py,
`PartitionedModel.initialize`)

`initialize` resolves `stage_to_cut` (building the default
`[0, c, 2c, ...]` with `c = (num_cutpoints + 1) // num_stages` when the
caller supplied none) and then asserts, in order: the list is
`num_stages` long, its last entry is at most `num_cutpoints`, and its
entries are strictly increasing.  A failed Python `assert`, the
`ValueError` from `range(0, 0, 0)` when `c = 0`, and the `IndexError`
from `stage_to_cut[-1]` on an empty list all become `Except.error`. -/

/-- The default stage-to-cut construction:
`[i for i in range(0, cuts_per_stage * num_stages, cuts_per_stage)]`. -/
def defaultStageToCut (numCutpoints numStages : Nat) : Except String (List Int) :=
  let cutsPerStage := (numCutpoints + 1) / numStages
  if cutsPerStage = 0 then .error "ValueError: range() arg 3 must not be zero"
  else .ok ((List.range numStages).map (fun i => ((i * cutsPerStage : Nat) : Int)))

/-- The three `assert`s of `PartitionedModel.initialize`, in source
order; `stc.getLast?.getD 0` with the preceding emptiness test embeds
`stage_to_cut[-1]`. -/
def checkStageToCut (stc : List Int) (numCutpoints numStages : Nat) :
    Except String (List Int) :=
  if stc.length = numStages then
    if stc = [] then .error "IndexError: list index out of range"
    else if stc.getLast?.getD 0 ≤ (numCutpoints : Int) then
      if (List.range (numStages - 1)).all
          (fun i => decide (stc.getD i 0 < stc.getD (i + 1) 0)) then
        .ok stc
      else .error "AssertionError: stage-to-cut must be strictly increasing"
    else .error "AssertionError: the last cut index must be at most the number of cutpoints"
  else .error "AssertionError: stage-to-cut mapping must be number-of-stages long"

/-- The stage-to-cut resolution and validation performed by
`PartitionedModel.initialize` before any pipeline run. -/
def initStageToCut (stageToCut : Option (List Int))
    (numCutpoints numStages : Nat) : Except String (List Int) :=
  match (match stageToCut with
          | some l => Except.ok l
          | none => defaultStageToCut numCutpoints numStages) with
  | .error e => .error e
  | .ok stc => checkStageToCut stc numCutpoints numStages

theorem getD_pairwise_iff_chain (l : List Int) :
    ((List.range (l.length - 1)).all
        (fun i => decide (l.getD i 0 < l.getD (i + 1) 0)) = true) ↔
      List.Chain' (· < ·) l := by
  rw [List.chain'_iff_get, List.all_eq_true]
  constructor
  · intro h i hi
    have hmem : i ∈ List.range (l.length - 1) := List.mem_range.mpr hi
    have := of_decide_eq_true (h i hmem)
    rwa [List.getD_eq_getElem l 0 (by omega),
      List.getD_eq_getElem l 0 (by omega)] at this
  · intro h i hmem
    have hi : i < l.length - 1 := List.mem_range.mp hmem
    apply decide_eq_true
    rw [List.getD_eq_getElem l 0 (by omega), List.getD_eq_getElem l 0 (by omega)]
    exact h i hi

theorem checkStageToCut_ok_iff (stc : List Int) (K S : Nat) (l : List Int) :
    checkStageToCut stc K S = Except.ok l ↔
      l = stc ∧ stc.length = S ∧ stc ≠ [] ∧
        stc.getLast?.getD 0 ≤ (K : Int) ∧ List.Chain' (· < ·) stc := by
  unfold checkStageToCut
  by_cases hlen : stc.length = S
  · rw [if_pos hlen]
    by_cases hnil : stc = []
    · rw [if_pos hnil]
      simp [hnil]
    · rw [if_neg hnil]
      by_cases hle : stc.getLast?.getD 0 ≤ (K : Int)
      · rw [if_pos hle]
        by_cases hinc : (List.range (S - 1)).all
            (fun i => decide (stc.getD i 0 < stc.getD (i + 1) 0)) = true
        · rw [if_pos hinc]
          have hchain : List.Chain' (· < ·) stc := by
            rw [← getD_pairwise_iff_chain, hlen]
            exact hinc
          constructor
          · intro h
            exact ⟨(Except.ok.injEq .. ▸ h).symm, hlen, hnil, hle, hchain⟩
          · intro ⟨h1, _⟩
            rw [h1]
        · rw [if_neg hinc]
          constructor
          · intro h; exact absurd h (by simp)
          · intro ⟨_, _, _, _, hchain⟩
            rw [← getD_pairwise_iff_chain, hlen] at hchain
            exact absurd hchain hinc
      · rw [if_neg hle]
        constructor
        · intro h; exact absurd h (by simp)
        · intro ⟨_, _, _, hle2, _⟩; exact absurd hle2 hle
  · rw [if_neg hlen]
    constructor
    · intro h; exact absurd h (by simp)
    · intro ⟨_, hlen2, _⟩; exact absurd hlen2 hlen

/-- C4: every stage-to-cut assignment under which
`PartitionedModel.initialize` completes satisfies the invariant (length
equals `num_stages`, strictly increasing, last entry at most the number
of cutpoints); a supplied list violating any of those conditions makes
`initialize` fail at setup; and the default assignment is
`[0, c, 2c, ...]` with `c = (num_cutpoints + 1) // num_stages`. -/
theorem C4_stage_to_cut_invariant :
    (∀ (opt : Option (List Int)) (K S : Nat) (l : List Int),
      initStageToCut opt K S = Except.ok l →
        l.length = S ∧ List.Chain' (· < ·) l ∧ ∀ x ∈ l.getLast?, x ≤ (K : Int)) ∧
    (∀ (m : List Int) (K S : Nat),
      (m.length ≠ S ∨ ¬ List.Chain' (· < ·) m ∨ ∃ x ∈ m.getLast?, (K : Int) < x) →
      ∀ l, initStageToCut (some m) K S ≠ Except.ok l) ∧
    (∀ (K S : Nat) (l : List Int),
      initStageToCut none K S = Except.ok l →
        l = (List.range S).map (fun i => ((i * ((K + 1) / S) : Nat) : Int))) := by
  have hvalid : ∀ (stc : List Int) (K S : Nat) (l : List Int),
      checkStageToCut stc K S = Except.ok l →
        l = stc ∧ l.length = S ∧ List.Chain' (· < ·) l ∧
          ∀ x ∈ l.getLast?, x ≤ (K : Int) := by
    intro stc K S l h
    obtain ⟨h1, h2, h3, h4, h5⟩ := (checkStageToCut_ok_iff stc K S l).mp h
    subst h1
    refine ⟨rfl, h2, h5, ?_⟩
    intro x hx
    rcases hlast : l.getLast? with _ | y
    · rw [hlast] at hx; exact absurd hx (by simp)
    · rw [hlast] at hx h4
      simp only [Option.mem_def, Option.some.injEq] at hx
      simpa [hx] using h4
  have hok : ∀ (opt : Option (List Int)) (K S : Nat) (l : List Int),
      initStageToCut opt K S = Except.ok l →
        l.length = S ∧ List.Chain' (· < ·) l ∧ ∀ x ∈ l.getLast?, x ≤ (K : Int) := by
    intro opt K S l h
    rcases opt with _ | m
    · unfold initStageToCut defaultStageToCut at h
      by_cases hc : (K + 1) / S = 0
      · simp [hc] at h
      · rw [if_neg hc] at h
        exact (hvalid _ K S l h).2
    · exact (hvalid m K S l h).2
  refine ⟨hok, ?_, ?_⟩
  · intro m K S hviol l h
    obtain ⟨hl, h1, h2, h3⟩ := hvalid m K S l (by exact h)
    subst hl
    rcases hviol with hv | hv | ⟨x, hx1, hx2⟩
    · exact hv h1
    · exact hv h2
    · exact absurd (h3 x hx1) (by omega)
  · intro K S l h
    unfold initStageToCut defaultStageToCut at h
    by_cases hc : (K + 1) / S = 0
    · simp [hc] at h
    · rw [if_neg hc] at h
      exact (hvalid _ K S l h).1

/-- Witness for C4 at concrete inputs: the assignment `[0, 2, 4]` with 5
cutpoints and 3 stages passes `initialize` and satisfies the invariant,
and the non-increasing list `[0, 2, 1]` is rejected. -/
theorem C4_stage_to_cut_invariant_witness :
    (([0, 2, 4] : List Int).length = 3 ∧
      List.Chain' (· < ·) ([0, 2, 4] : List Int) ∧
      ∀ x ∈ ([0, 2, 4] : List Int).getLast?, x ≤ (5 : Int)) ∧
    (∀ l, initStageToCut (some [0, 2, 1]) 5 3 ≠ Except.ok l) :=
  ⟨C4_stage_to_cut_invariant.1 (some [0, 2, 4]) 5 3 [0, 2, 4] (by rfl),
   C4_stage_to_cut_invariant.2.1 [0, 2, 1] 5 3 (by
    right; left
    intro hch
    obtain ⟨h01, h2⟩ := List.chain'_cons.mp hch
    obtain ⟨h12, _⟩ := List.chain'_cons.mp h2
    omega)⟩

/-! ## Dry-run trace comparison (src/varuna/partitioned_model.py, `dry_run`)

`dry_run` executes the model on dummy batches of size 1 and size 2 and
then, per cutpoint, walks the first trace's tensor-shape list with
`for idx, shape in enumerate(input_shapes_1[name])`, looks up
`input_shapes_2[name][idx]` (an `IndexError` when the second trace has
fewer tensors), asserts equal rank, and collects the dimension indices
that read 1 in the first trace and 2 in the second.  Tensors present
only in the second trace are never visited. -/

/-- The inner dimension scan of `dry_run`: indices (offset by `i0`)
where the first trace reads 1 and the second reads 2. -/
def batchDims : List Nat → List Nat → Nat → List Nat
  | [], _, _ => []
  | _ :: _, [], _ => []
  | d1 :: r1, d2 :: r2, i =>
    (if d1 = 1 ∧ d2 = 2 then [i] else []) ++ batchDims r1 r2 (i + 1)

/-- The per-cutpoint trace comparison of `dry_run`: for each tensor of
the first trace, find its counterpart in the second trace, assert equal
rank, and flag the batch-scaling dimensions. -/
def cutpointShapeChanges : List (List Nat) → List (List Nat) →
    Except String (List (List Nat))
  | [], _ => .ok []
  | _ :: _, [] => .error "IndexError: list index out of range"
  | s1 :: r1, s2 :: r2 =>
    if s1.length = s2.length then
      match cutpointShapeChanges r1 r2 with
      | .error e => .error e
      | .ok rest => .ok (batchDims s1 s2 0 :: rest)
    else .error "AssertionError: traces disagree on tensor dimensionality"

theorem batchDims_mem :
    ∀ (s1 s2 : List Nat) (i0 i : Nat),
      i ∈ batchDims s1 s2 i0 ↔
        ∃ j, i = i0 + j ∧ j < s1.length ∧ j < s2.length ∧
          s1.getD j 0 = 1 ∧ s2.getD j 0 = 2
  | [], s2, i0, i => by simp [batchDims]
  | d1 :: r1, [], i0, i => by simp [batchDims]
  | d1 :: r1, d2 :: r2, i0, i => by
    rw [batchDims]
    simp only [List.mem_append]
    constructor
    · intro h
      rcases h with h | h
      · by_cases hd : d1 = 1 ∧ d2 = 2
        · rw [if_pos hd] at h
          simp only [List.mem_singleton] at h
          exact ⟨0, by simpa using h, by simp, by simp,
            by simp [hd.1], by simp [hd.2]⟩
        · rw [if_neg hd] at h
          exact absurd h (by simp)
      · obtain ⟨j, hj1, hj2, hj3, hj4, hj5⟩ := (batchDims_mem r1 r2 (i0 + 1) i).mp h
        exact ⟨j + 1, by omega, by simpa using hj2, by simpa using hj3,
          by simpa using hj4, by simpa using hj5⟩
    · intro ⟨j, hj1, hj2, hj3, hj4, hj5⟩
      rcases j with _ | j'
      · left
        simp only [List.getD_cons_zero] at hj4 hj5
        rw [if_pos ⟨hj4, hj5⟩]
        simp [hj1]
      · right
        apply (batchDims_mem r1 r2 (i0 + 1) i).mpr
        exact ⟨j', by omega, by simpa using hj2, by simpa using hj3,
          by simpa using hj4, by simpa using hj5⟩

/-- Success characterization of the `dry_run` trace comparison: it
succeeds exactly when the second trace has at least as many tensors as
the first and the common tensors agree in rank, and then the flagged
index set per tensor is exactly the set of dimensions reading 1 in the
first trace and 2 in the second. -/
theorem cutpointShapeChanges_ok :
    ∀ (s1 s2 : List (List Nat)) (out : List (List Nat)),
      cutpointShapeChanges s1 s2 = Except.ok out →
        s1.length ≤ s2.length ∧
        (∀ idx, idx < s1.length →
          (s1.getD idx []).length = (s2.getD idx []).length) ∧
        out.length = s1.length ∧
        (∀ idx, idx < s1.length → ∀ i,
          i ∈ out.getD idx [] ↔
            i < (s1.getD idx []).length ∧
              (s1.getD idx []).getD i 0 = 1 ∧ (s2.getD idx []).getD i 0 = 2)
  | [], s2, out => by
    intro h
    rw [cutpointShapeChanges] at h
    have : out = [] := by
      have := Except.ok.injEq (α := List (List Nat)) (ε := String) .. ▸ h
      exact this.symm
    subst this
    exact ⟨by simp, by simp, by simp, by simp⟩
  | t1 :: r1, [], out => by
    intro h
    rw [cutpointShapeChanges] at h
    exact absurd h (by simp)
  | t1 :: r1, t2 :: r2, out => by
    intro h
    rw [cutpointShapeChanges] at h
    by_cases hlen : t1.length = t2.length
    · rw [if_pos hlen] at h
      rcases hrec : cutpointShapeChanges r1 r2 with e | rest
      · rw [hrec] at h; exact absurd h (by simp)
      · rw [hrec] at h
        have hout : out = batchDims t1 t2 0 :: rest := by
          have := Except.ok.injEq (α := List (List Nat)) (ε := String) .. ▸ h
          exact this.symm
        subst hout
        obtain ⟨ih1, ih2, ih3, ih4⟩ := cutpointShapeChanges_ok r1 r2 rest hrec
        refine ⟨by simpa using ih1, ?_, by simpa using ih3, ?_⟩
        · intro idx hidx
          rcases idx with _ | idx'
          · simpa using hlen
          · simpa using ih2 idx' (by simpa using hidx)
        · intro idx hidx i
          rcases idx with _ | idx'
          · simp only [List.getD_cons_zero]
            rw [batchDims_mem t1 t2 0 i]
            constructor
            · intro ⟨j, hj1, hj2, hj3, hj4, hj5⟩
              obtain rfl : i = j := by omega
              exact ⟨hj2, hj4, hj5⟩
            · intro ⟨h1, h2, h3⟩
              exact ⟨i, by omega, h1, by omega, h2, h3⟩
          · simpa using ih4 idx' (by simpa using hidx) i
    · rw [if_neg hlen] at h
      exact absurd h (by simp)

/-- Failure direction for the `dry_run` comparison: a rank disagreement
on a common tensor, or a second trace with fewer tensors, prevents
success. -/
theorem cutpointShapeChanges_fail (s1 s2 : List (List Nat))
    (hbad : s2.length < s1.length ∨
      ∃ idx, idx < s1.length ∧ idx < s2.length ∧
        (s1.getD idx []).length ≠ (s2.getD idx []).length) :
    ∀ out, cutpointShapeChanges s1 s2 ≠ Except.ok out := by
  intro out h
  obtain ⟨h1, h2, _, _⟩ := cutpointShapeChanges_ok s1 s2 out h
  rcases hbad with hb | ⟨idx, hi1, _, hi3⟩
  · omega
  · exact hi3 (h2 idx hi1)

/-- C5 (amended): `dry_run` executes the model at batch sizes 1 and 2
and flags as batch-scaling exactly the dimensions reading 1 in the
first trace and 2 in the second; a rank disagreement on a common tensor
fails (assertion violation), and a second trace with fewer tensors
fails (index error), but extra tensors in the second trace are silently
ignored rather than rejected. -/
theorem C5_dry_run_trace_comparison :
    (∀ (s1 s2 out : List (List Nat)),
      cutpointShapeChanges s1 s2 = Except.ok out →
        s1.length ≤ s2.length ∧
        (∀ idx, idx < s1.length →
          (s1.getD idx []).length = (s2.getD idx []).length) ∧
        out.length = s1.length ∧
        (∀ idx, idx < s1.length → ∀ i,
          i ∈ out.getD idx [] ↔
            i < (s1.getD idx []).length ∧
              (s1.getD idx []).getD i 0 = 1 ∧ (s2.getD idx []).getD i 0 = 2)) ∧
    (∀ (s1 s2 : List (List Nat)),
      (s2.length < s1.length ∨
        ∃ idx, idx < s1.length ∧ idx < s2.length ∧
          (s1.getD idx []).length ≠ (s2.getD idx []).length) →
      ∀ out, cutpointShapeChanges s1 s2 ≠ Except.ok out) :=
  ⟨cutpointShapeChanges_ok, cutpointShapeChanges_fail⟩

/-- Witness for C5: a shape `[1, 4]` against `[2, 4]` flags exactly
dimension 0, and a rank mismatch `[1]` against `[1, 2]` is rejected. -/
theorem C5_dry_run_trace_comparison_witness :
    (([[1, 4]] : List (List Nat)).length ≤ ([[2, 4]] : List (List Nat)).length ∧
      (∀ idx, idx < ([[1, 4]] : List (List Nat)).length →
        (([[1, 4]] : List (List Nat)).getD idx []).length =
          (([[2, 4]] : List (List Nat)).getD idx []).length) ∧
      ([[0]] : List (List Nat)).length = ([[1, 4]] : List (List Nat)).length ∧
      (∀ idx, idx < ([[1, 4]] : List (List Nat)).length → ∀ i,
        i ∈ ([[0]] : List (List Nat)).getD idx [] ↔
          i < (([[1, 4]] : List (List Nat)).getD idx []).length ∧
            (([[1, 4]] : List (List Nat)).getD idx []).getD i 0 = 1 ∧
            (([[2, 4]] : List (List Nat)).getD idx []).getD i 0 = 2)) ∧
    (∀ out, cutpointShapeChanges [[1]] [[1, 2]] ≠ Except.ok out) :=
  ⟨C5_dry_run_trace_comparison.1 [[1, 4]] [[2, 4]] [[0]] (by rfl),
   C5_dry_run_trace_comparison.2 [[1]] [[1, 2]]
     (Or.inr ⟨0, by decide, by decide, by decide⟩)⟩

/-- C5 counterexample: the two traces disagree on the tensor count (one
tensor versus two at the marker), yet the comparison succeeds — the
extra tensor of the second trace is silently ignored, so `dry_run` does
not fail with an assertion violation as the claim states. -/
theorem C5_dry_run_counterexample :
    ([[1]] : List (List Nat)).length ≠ ([[2], [5]] : List (List Nat)).length ∧
    cutpointShapeChanges [[1]] [[2], [5]] = Except.ok [[0]] :=
  ⟨by decide, by rfl⟩

/-! ## Background receive workers (src/varuna/varuna.py,
`Pipeline.acts_reciever` and `Pipeline.grads_reciever`)

`Varuna.init_communication` takes the first traced boundary shape and
overwrites its leading dimension with the microbatch size
(`self.fwd_inp_shape[0] = self.micro_batch_size`).  Each receive worker
walks the schedule and, for its task kind, posts a receive of that
shape — substituting `last_chunk_size` at dimension 0 only, on the
final chunk of an indivisible batch. -/

/-- `init_communication`: traced shape with the leading dimension set
to the microbatch size. -/
def commShape (traced : List Nat) (microBatchSize : Nat) : List Nat :=
  traced.set 0 microBatchSize

/-- The shape one receive posts
(`if index == (chunks-1) and self.last_chunk_size > 0:
fwd_inp_shape[0] = self.last_chunk_size`). -/
def recvShapeFor (baseShape : List Nat) (chunks lastChunkSize index : Nat) :
    List Nat :=
  if index = chunks - 1 ∧ 0 < lastChunkSize then baseShape.set 0 lastChunkSize
  else baseShape

/-- The sequence of shapes `acts_reciever` posts: one receive per
FORWARD (task 0) entry of the schedule. -/
def actsRecieverShapes (schedule : List (Nat × Nat)) (baseShape : List Nat)
    (chunks lastChunkSize : Nat) : List (List Nat) :=
  schedule.filterMap (fun t =>
    if t.1 = 0 then some (recvShapeFor baseShape chunks lastChunkSize t.2)
    else none)

/-- The sequence of shapes `grads_reciever` posts: one receive per
BACKWARD (task 2) entry of the schedule. -/
def gradsRecieverShapes (schedule : List (Nat × Nat)) (baseShape : List Nat)
    (chunks lastChunkSize : Nat) : List (List Nat) :=
  schedule.filterMap (fun t =>
    if t.1 = 2 then some (recvShapeFor baseShape chunks lastChunkSize t.2)
    else none)

/-- The remainder-microbatch shape described by the claim: every
batch-scaling dimension set to the remainder chunk size, all other
dimensions unchanged. -/
def claimRemainderShape (baseShape : List Nat) (bDims : List Nat)
    (lastChunkSize : Nat) : List Nat :=
  bDims.foldl (fun s d => s.set d lastChunkSize) baseShape

/-- C2 counterexample: for a traced boundary tensor of shape `[1, 4, 1]`
at batch size 1 and `[2, 4, 2]` at batch size 2 (batch-scaling
dimensions 0 and 2), with microbatch size 4 and a remainder chunk of 3,
the receive worker posts `[3, 4, 1]` — only dimension 0 is substituted —
while the claim requires `[3, 4, 3]`. -/
theorem C2_receiver_shape_counterexample :
    batchDims [1, 4, 1] [2, 4, 2] 0 = [0, 2] ∧
    recvShapeFor (commShape [1, 4, 1] 4) 3 3 2 = [3, 4, 1] ∧
    claimRemainderShape (commShape [1, 4, 1] 4)
      (batchDims [1, 4, 1] [2, 4, 2] 0) 3 = [3, 4, 3] ∧
    recvShapeFor (commShape [1, 4, 1] 4) 3 3 2 ≠
      claimRemainderShape (commShape [1, 4, 1] 4)
        (batchDims [1, 4, 1] [2, 4, 2] 0) 3 := by
  refine ⟨by rfl, by rfl, by rfl, ?_⟩
  intro h
  rw [show recvShapeFor (commShape [1, 4, 1] 4) 3 3 2 = [3, 4, 1] from rfl,
    show claimRemainderShape (commShape [1, 4, 1] 4)
      (batchDims [1, 4, 1] [2, 4, 2] 0) 3 = [3, 4, 3] from rfl] at h
  exact absurd h (by decide)

theorem recvShapeFor_commShape (traced : List Nat)
    (micro chunks lastChunk idx : Nat) :
    recvShapeFor (commShape traced micro) chunks lastChunk idx =
      traced.set 0 (if idx = chunks - 1 ∧ 0 < lastChunk then lastChunk
        else micro) := by
  unfold recvShapeFor commShape
  by_cases h : idx = chunks - 1 ∧ 0 < lastChunk
  · rw [if_pos h, if_pos h, List.set_set]
  · rw [if_neg h, if_neg h]

/-- C2 (amended): each receive worker posts, per schedule entry of its
task kind, the traced shape with only the leading dimension (index 0)
substituted — the microbatch size on full chunks and the remainder
chunk size on the final chunk of an indivisible batch; every other
dimension, including any further batch-scaling dimension, keeps the
value from the batch-size-1 trace. -/
theorem C2_receiver_shapes :
    ∀ (schedule : List (Nat × Nat)) (traced : List Nat)
      (micro chunks lastChunk : Nat),
      actsRecieverShapes schedule (commShape traced micro) chunks lastChunk =
        schedule.filterMap (fun t =>
          if t.1 = 0 then
            some (traced.set 0
              (if t.2 = chunks - 1 ∧ 0 < lastChunk then lastChunk else micro))
          else none) ∧
      gradsRecieverShapes schedule (commShape traced micro) chunks lastChunk =
        schedule.filterMap (fun t =>
          if t.1 = 2 then
            some (traced.set 0
              (if t.2 = chunks - 1 ∧ 0 < lastChunk then lastChunk else micro))
          else none) := by
  intro schedule traced micro chunks lastChunk
  constructor
  · unfold actsRecieverShapes
    apply List.filterMap_congr
    intro t _
    by_cases ht : t.1 = 0
    · rw [if_pos ht, if_pos ht, recvShapeFor_commShape]
    · rw [if_neg ht, if_neg ht]
  · unfold gradsRecieverShapes
    apply List.filterMap_congr
    intro t _
    by_cases ht : t.1 = 2
    · rw [if_pos ht, if_pos ht, recvShapeFor_commShape]
    · rw [if_neg ht, if_neg ht]

/-! ## Parameter-ownership resolution (src/varuna/partitioned_model.py,
`PartitionedModel.trace_and_store_param_access`)

After the no-gradient trace, each parameter carries the set of cutpoint
intervals it was observed being read in (`param_access`).  The method
then (1) walks `named_parameters()`, asserting every access set has
size < 2 and recording the observed interval of each accessed
parameter, and (2) walks the canonical module order with a running
cutpoint counter, assigning every still-unmapped parameter the interval
of its structural position. -/

/-- One entry of the canonical module order: a cutpoint, or an ordinary
module listed with its direct (`recurse=False`) parameter names. -/
inductive MItem where
  | cut : MItem
  | mod : List String → MItem
  deriving DecidableEq

/-- Phase 1: `for n, p in named_parameters(): assert len(param_access[p]) < 2`,
then record the observed interval of each accessed parameter. -/
def observedOwnership : List (String × List Nat) →
    Except String (List (String × Nat))
  | [] => .ok []
  | (n, acc) :: rest =>
    if 2 ≤ acc.length then
      .error ("Parameter " ++ n ++ " in multiple cuts, mark as two shared parameters?")
    else
      match observedOwnership rest with
      | .error e => .error e
      | .ok m =>
        match acc with
        | [] => .ok m
        | c :: _ => .ok ((n, c) :: m)

/-- `if full_name not in param_name_to_pstage: param_name_to_pstage[full_name] = cp_index`. -/
def insertAbsent (m : List (String × Nat)) (n : String) (cp : Nat) :
    List (String × Nat) :=
  if (m.lookup n).isSome then m else m ++ [(n, cp)]

/-- Phase 2: walk the canonical module order with the running
`cp_index`, defaulting every unmapped parameter to the interval of its
structural position. -/
def structuralFill : List MItem → Nat → List (String × Nat) →
    List (String × Nat)
  | [], _, m => m
  | .cut :: rest, cp, m => structuralFill rest (cp + 1) m
  | .mod ns :: rest, cp, m =>
    structuralFill rest cp (ns.foldl (fun acc n => insertAbsent acc n cp) m)

/-- The full ownership resolution of `trace_and_store_param_access`. -/
def resolveOwnership (namedParams : List (String × List Nat))
    (moduleOrder : List MItem) : Except String (List (String × Nat)) :=
  match observedOwnership namedParams with
  | .error e => .error e
  | .ok m => .ok (structuralFill moduleOrder 0 m)

/-- Specification-side notion of a parameter's structural interval: the
number of cutpoints preceding the first module that lists it. -/
def structuralInterval : List MItem → String → Nat → Option Nat
  | [], _, _ => none
  | .cut :: rest, n, cp => structuralInterval rest n (cp + 1)
  | .mod ns :: rest, n, cp =>
    if n ∈ ns then some cp else structuralInterval rest n cp

theorem lookup_append_left (k : String) (m l : List (String × Nat)) (c : Nat)
    (h : m.lookup k = some c) : (m ++ l).lookup k = some c := by
  induction m with
  | nil => simp [List.lookup] at h
  | cons a m ih =>
    rcases a with ⟨k0, c0⟩
    by_cases hk : k = k0
    · subst hk
      simp only [List.lookup, beq_self_eq_true, cond_true] at h ⊢
      exact h
    · simp only [List.cons_append, List.lookup, beq_false_of_ne hk,
        cond_false] at h ⊢
      exact ih h

theorem lookup_append_right_nat (k : String) (m l : List (String × Nat))
    (h : m.lookup k = none) : (m ++ l).lookup k = l.lookup k := by
  induction m with
  | nil => simp
  | cons a m ih =>
    rcases a with ⟨k0, c0⟩
    by_cases hk : k = k0
    · subst hk; simp [List.lookup] at h
    · simp only [List.cons_append, List.lookup, beq_false_of_ne hk,
        cond_false] at h ⊢
      exact ih h

theorem insertAbsent_lookup_ne (m : List (String × Nat)) (n n' : String)
    (cp : Nat) (h : n' ≠ n) :
    (insertAbsent m n cp).lookup n' = m.lookup n' := by
  unfold insertAbsent
  by_cases hp : (m.lookup n).isSome
  · rw [if_pos hp]
  · rw [if_neg hp]
    rcases hl : m.lookup n' with _ | c
    · rw [lookup_append_right_nat n' m _ hl]
      simp [List.lookup, beq_false_of_ne h]
    · exact lookup_append_left n' m _ c hl

theorem insertAbsent_lookup_self_none (m : List (String × Nat)) (n : String)
    (cp : Nat) (h : m.lookup n = none) :
    (insertAbsent m n cp).lookup n = some cp := by
  unfold insertAbsent
  rw [if_neg (by simp [h])]
  rw [lookup_append_right_nat n m _ h]
  simp [List.lookup]

theorem insertAbsent_lookup_self_some (m : List (String × Nat)) (n : String)
    (cp c : Nat) (h : m.lookup n = some c) :
    (insertAbsent m n cp).lookup n = some c := by
  unfold insertAbsent
  rw [if_pos (by simp [h])]
  exact h

theorem foldl_insertAbsent_lookup_notMem (ns : List String)
    (m : List (String × Nat)) (n : String) (cp : Nat) (h : n ∉ ns) :
    (ns.foldl (fun acc x => insertAbsent acc x cp) m).lookup n = m.lookup n := by
  induction ns generalizing m with
  | nil => rfl
  | cons x ns ih =>
    simp only [List.foldl_cons]
    rw [ih _ (fun hm => h (by simp [hm]))]
    exact insertAbsent_lookup_ne m x n cp (fun he => h (by simp [he]))

theorem foldl_insertAbsent_lookup_some (ns : List String)
    (m : List (String × Nat)) (n : String) (cp c : Nat)
    (h : m.lookup n = some c) :
    (ns.foldl (fun acc x => insertAbsent acc x cp) m).lookup n = some c := by
  induction ns generalizing m with
  | nil => exact h
  | cons x ns ih =>
    simp only [List.foldl_cons]
    apply ih
    by_cases hx : n = x
    · subst hx; exact insertAbsent_lookup_self_some m n cp c h
    · rw [insertAbsent_lookup_ne m x n cp hx]; exact h

theorem foldl_insertAbsent_lookup_mem (ns : List String)
    (m : List (String × Nat)) (n : String) (cp : Nat) (hmem : n ∈ ns)
    (h : m.lookup n = none) :
    (ns.foldl (fun acc x => insertAbsent acc x cp) m).lookup n = some cp := by
  induction ns generalizing m with
  | nil => simp at hmem
  | cons x ns ih =>
    simp only [List.foldl_cons]
    by_cases hx : n = x
    · subst hx
      exact foldl_insertAbsent_lookup_some ns _ n cp cp
        (insertAbsent_lookup_self_none m n cp h)
    · rcases List.mem_cons.mp hmem with he | hm
      · exact absurd he hx
      · exact ih (insertAbsent m x cp) hm (by rw [insertAbsent_lookup_ne m x n cp hx]; exact h)

theorem structuralFill_lookup_some (order : List MItem)
    (m : List (String × Nat)) (n : String) (cp c : Nat)
    (h : m.lookup n = some c) :
    (structuralFill order cp m).lookup n = some c := by
  induction order generalizing m cp with
  | nil => exact h
  | cons item rest ih =>
    rcases item with _ | ns
    · rw [structuralFill]; exact ih _ _ h
    · rw [structuralFill]
      exact ih _ _ (foldl_insertAbsent_lookup_some ns m n cp c h)

theorem structuralFill_lookup_none (order : List MItem)
    (m : List (String × Nat)) (n : String) (cp : Nat)
    (h : m.lookup n = none) :
    (structuralFill order cp m).lookup n = structuralInterval order n cp := by
  induction order generalizing m cp with
  | nil => exact h
  | cons item rest ih =>
    rcases item with _ | ns
    · rw [structuralFill, structuralInterval]; exact ih _ _ h
    · rw [structuralFill, structuralInterval]
      by_cases hmem : n ∈ ns
      · rw [if_pos hmem]
        exact structuralFill_lookup_some rest _ n cp cp
          (foldl_insertAbsent_lookup_mem ns m n cp hmem h)
      · rw [if_neg hmem]
        exact ih _ _ (by rw [foldl_insertAbsent_lookup_notMem ns m n cp hmem]; exact h)

theorem lookup_some_implies_mem :
    ∀ (ps : List (String × List Nat)) (m : List (String × Nat)),
      observedOwnership ps = Except.ok m →
      ∀ (n : String) (v : Nat), m.lookup n = some v → n ∈ ps.map Prod.fst
  | [], m, h, n, v => by
    rw [observedOwnership] at h
    have hm : m = [] := by
      have := Except.ok.injEq (α := List (String × Nat)) (ε := String) .. ▸ h
      exact this.symm
    subst hm
    intro hl
    simp [List.lookup] at hl
  | (n0, acc0) :: rest, m, h, n, v => by
    rw [observedOwnership] at h
    by_cases hlen : 2 ≤ acc0.length
    · rw [if_pos hlen] at h; exact absurd h (by simp)
    · rw [if_neg hlen] at h
      rcases hrec : observedOwnership rest with e | m'
      · rw [hrec] at h; exact absurd h (by simp)
      · rw [hrec] at h
        rcases acc0 with _ | ⟨c0, cs0⟩
        · have hm : m = m' := by
            have := Except.ok.injEq (α := List (String × Nat)) (ε := String) .. ▸ h
            exact this.symm
          subst hm
          intro hl
          exact List.mem_cons.mpr (Or.inr (lookup_some_implies_mem rest _ hrec n v hl))
        · have hm : m = (n0, c0) :: m' := by
            have := Except.ok.injEq (α := List (String × Nat)) (ε := String) .. ▸ h
            exact this.symm
          subst hm
          intro hl
          by_cases hn : n = n0
          · subst hn; exact List.mem_cons.mpr (Or.inl rfl)
          · simp only [List.lookup, beq_false_of_ne hn, cond_false] at hl
            exact List.mem_cons.mpr
              (Or.inr (lookup_some_implies_mem rest m' hrec n v hl))

theorem observedOwnership_lookup :
    ∀ (ps : List (String × List Nat)) (m : List (String × Nat)),
      observedOwnership ps = Except.ok m → (ps.map Prod.fst).Nodup →
      (∀ n c cs, (n, c :: cs) ∈ ps → m.lookup n = some c) ∧
      (∀ n, (n, ([] : List Nat)) ∈ ps → m.lookup n = none)
  | [], m, h, _ => by
    rw [observedOwnership] at h
    have hm : m = [] := by
      have := Except.ok.injEq (α := List (String × Nat)) (ε := String) .. ▸ h
      exact this.symm
    subst hm
    exact ⟨fun n c cs hin => absurd hin (by simp),
      fun n hin => absurd hin (by simp)⟩
  | (n0, acc0) :: rest, m, h, hnd => by
    rw [observedOwnership] at h
    by_cases hlen : 2 ≤ acc0.length
    · rw [if_pos hlen] at h; exact absurd h (by simp)
    · rw [if_neg hlen] at h
      rcases hrec : observedOwnership rest with e | m'
      · rw [hrec] at h; exact absurd h (by simp)
      · rw [hrec] at h
        simp only [List.map_cons, List.nodup_cons] at hnd
        obtain ⟨hn0, hndr⟩ := hnd
        obtain ⟨ih1, ih2⟩ := observedOwnership_lookup rest m' hrec hndr
        rcases acc0 with _ | ⟨c0, cs0⟩
        · have hm : m = m' := by
            have := Except.ok.injEq (α := List (String × Nat)) (ε := String) .. ▸ h
            exact this.symm
          subst hm
          constructor
          · intro n c cs hin
            rcases List.mem_cons.mp hin with he | hin'
            · exact absurd (congrArg Prod.snd he).symm (by simp)
            · exact ih1 n c cs hin'
          · intro n hin
            rcases List.mem_cons.mp hin with he | hin'
            · obtain ⟨he1, _⟩ := Prod.mk.injEq .. ▸ he
              subst he1
              by_cases hc : ∃ c cs, (n, c :: cs) ∈ rest
              · obtain ⟨c, cs, hcc⟩ := hc
                exact absurd (List.mem_map_of_mem Prod.fst hcc) hn0
              · rcases hl : m.lookup n with _ | v
                · rfl
                · exfalso
                  exact hn0 (lookup_some_implies_mem rest m hrec n v hl)
            · exact ih2 n hin'
        · have hm : m = (n0, c0) :: m' := by
            have := Except.ok.injEq (α := List (String × Nat)) (ε := String) .. ▸ h
            exact this.symm
          subst hm
          constructor
          · intro n c cs hin
            rcases List.mem_cons.mp hin with he | hin'
            · obtain ⟨he1, he2⟩ := Prod.mk.injEq .. ▸ he
              subst he1
              have : c = c0 := by
                have := congrArg List.head? he2
                simpa using this
              subst this
              simp [List.lookup]
            · have hne : n ≠ n0 :=
                fun he => hn0 (he ▸ List.mem_map_of_mem Prod.fst hin')
              simp only [List.lookup, beq_false_of_ne hne, cond_false]
              exact ih1 n c cs hin'
          · intro n hin
            rcases List.mem_cons.mp hin with he | hin'
            · exact absurd (congrArg Prod.snd he).symm (by simp)
            · have hne : n ≠ n0 :=
                fun he => hn0 (he ▸ List.mem_map_of_mem Prod.fst hin')
              simp only [List.lookup, beq_false_of_ne hne, cond_false]
              exact ih2 n hin'

theorem observedOwnership_error (pre : List (String × List Nat)) (n : String)
    (acc : List Nat) (post : List (String × List Nat))
    (hpre : ∀ p ∈ pre, p.2.length < 2) (hacc : 2 ≤ acc.length) :
    observedOwnership (pre ++ (n, acc) :: post) =
      Except.error
        ("Parameter " ++ n ++ " in multiple cuts, mark as two shared parameters?") := by
  induction pre with
  | nil => rw [List.nil_append, observedOwnership, if_pos hacc]
  | cons p pre ih =>
    rcases p with ⟨n0, acc0⟩
    rw [List.cons_append, observedOwnership]
    have h0 : ¬ 2 ≤ acc0.length := by
      have hlt : acc0.length < 2 := hpre (n0, acc0) (by simp)
      omega
    rw [if_neg h0, ih (fun p hp => hpre p (by simp [hp]))]

/-- C6 (amended): the ownership resolver reports a fatal error, naming
the parameter, for any parameter observed being read in two or more
distinct intervals; a parameter never observed being read defaults to
the interval of its structural position in the canonical module order;
and a parameter observed being read exactly once resolves to its
*observed* interval — which is its structural interval only when the
two coincide. -/
theorem C6_param_ownership :
    (∀ (pre : List (String × List Nat)) (n : String) (acc : List Nat)
        (post : List (String × List Nat)) (order : List MItem),
      (∀ p ∈ pre, p.2.length < 2) → 2 ≤ acc.length →
      resolveOwnership (pre ++ (n, acc) :: post) order =
        Except.error
          ("Parameter " ++ n ++ " in multiple cuts, mark as two shared parameters?")) ∧
    (∀ (ps : List (String × List Nat)) (order : List MItem)
        (m : List (String × Nat)) (n : String) (c : Nat) (cs : List Nat),
      resolveOwnership ps order = Except.ok m → (ps.map Prod.fst).Nodup →
      (n, c :: cs) ∈ ps → m.lookup n = some c) ∧
    (∀ (ps : List (String × List Nat)) (order : List MItem)
        (m : List (String × Nat)) (n : String),
      resolveOwnership ps order = Except.ok m → (ps.map Prod.fst).Nodup →
      (n, ([] : List Nat)) ∈ ps →
      m.lookup n = structuralInterval order n 0) := by
  refine ⟨?_, ?_, ?_⟩
  · intro pre n acc post order hpre hacc
    unfold resolveOwnership
    rw [observedOwnership_error pre n acc post hpre hacc]
  · intro ps order m n c cs h hnd hin
    unfold resolveOwnership at h
    rcases hrec : observedOwnership ps with e | m0
    · rw [hrec] at h; exact absurd h (by simp)
    · rw [hrec] at h
      have hm : m = structuralFill order 0 m0 := by
        have := Except.ok.injEq (α := List (String × Nat)) (ε := String) .. ▸ h
        exact this.symm
      subst hm
      exact structuralFill_lookup_some order m0 n 0 c
        ((observedOwnership_lookup ps m0 hrec hnd).1 n c cs hin)
  · intro ps order m n h hnd hin
    unfold resolveOwnership at h
    rcases hrec : observedOwnership ps with e | m0
    · rw [hrec] at h; exact absurd h (by simp)
    · rw [hrec] at h
      have hm : m = structuralFill order 0 m0 := by
        have := Except.ok.injEq (α := List (String × Nat)) (ε := String) .. ▸ h
        exact this.symm
      subst hm
      exact structuralFill_lookup_none order m0 n 0
        ((observedOwnership_lookup ps m0 hrec hnd).2 n hin)

/-- Witness for C6: a doubly-read parameter is rejected with its name;
an observed parameter resolves to its observed interval; an unobserved
parameter resolves to its structural interval. -/
theorem C6_param_ownership_witness :
    resolveOwnership [("w", [0, 2])] [] =
      Except.error
        ("Parameter " ++ "w" ++ " in multiple cuts, mark as two shared parameters?") ∧
    List.lookup "a" [("a", 1), ("b", 0), ("z", 1)] = some 1 ∧
    List.lookup "b" [("a", 1), ("b", 0), ("z", 1)] =
      structuralInterval [MItem.mod ["b"], MItem.cut, MItem.mod ["z"]] "b" 0 :=
  ⟨C6_param_ownership.1 [] "w" [0, 2] [] [] (by intro p hp; simp at hp) (by decide),
   C6_param_ownership.2.1 [("a", [1]), ("b", [])]
     [MItem.mod ["b"], MItem.cut, MItem.mod ["z"]]
     [("a", 1), ("b", 0), ("z", 1)] "a" 1 [] (by rfl) (by simp) (by simp),
   C6_param_ownership.2.2 [("a", [1]), ("b", [])]
     [MItem.mod ["b"], MItem.cut, MItem.mod ["z"]]
     [("a", 1), ("b", 0), ("z", 1)] "b" (by rfl) (by simp) (by simp)⟩

/-- C6 counterexample: a parameter whose module sits structurally in
interval 0 but which is observed being read (once) in interval 2 is
resolved to interval 2, not to its structural module's interval, so the
claim's final clause fails on the code. -/
theorem C6_param_ownership_counterexample :
    resolveOwnership [("w", [2])] [MItem.mod ["w"], MItem.cut, MItem.cut] =
      Except.ok [("w", 2)] ∧
    structuralInterval [MItem.mod ["w"], MItem.cut, MItem.cut] "w" 0 = some 0 ∧
    List.lookup "w" [("w", 2)] = some 2 ∧ (2 : Nat) ≠ 0 :=
  ⟨rfl, rfl, rfl, by decide⟩

/-! ## `PartitionedModel.forward` exception handling
(src/varuna/partitioned_model.py)

```
try:
    calc_val = self.module(**inputs_as_dict)
    ret_val = self.ret_val if self.ret_val is not None else calc_val
except Exception as e:
    if self.ret_val is None:
        raise e
    ret_val = self.ret_val
self.ret_val = None
return ret_val
```
-/

/-- Embedding of the body of `PartitionedModel.forward`: given the
outcome of running the wrapped module and the current `ret_val`
recorded by the boundary-marker override, produce the value returned to
the caller (or the re-raised exception) and the cleared `ret_val`. -/
def pmForward {E V : Type} (moduleResult : Except E V) (retVal : Option V) :
    Except E V × Option V :=
  match moduleResult with
  | .ok calcVal =>
    (match retVal with
     | some r => .ok r
     | none => .ok calcVal, none)
  | .error e =>
    match retVal with
    | none => (.error e, none)
    | some r => (.ok r, none)

/-- C9: an exception in the partitioned stage's forward is re-raised to
the caller if and only if no return value had been recorded through the
boundary-marker override (`ret_val is None`); when a value had been
recorded the exception is swallowed and the recorded value is returned
instead. -/
theorem C9_forward_exception_masking {E V : Type} :
    (∀ e : E, pmForward (Except.error e) (none : Option V) =
      (Except.error e, none)) ∧
    (∀ (e : E) (r : V), pmForward (Except.error e) (some r) =
      (Except.ok r, none)) ∧
    (∀ (e : E) (rv : Option V),
      (pmForward (Except.error e) rv).1 = Except.error e ↔ rv = none) := by
  refine ⟨fun e => rfl, fun e r => rfl, ?_⟩
  intro e rv
  rcases rv with _ | r
  · simp [pmForward]
  · simp [pmForward]

/-! ## Exception-channel polling (src/varuna/partitioned_model.py,
`PartitionedModel.set_recv_fn`)

The two blocking-poll loops of `set_recv_fn` — the activation wait at
the top and the gradient wait inside the installed `recv` closure —
both have the form

```
while value is None:
    if not self.excp_queue.empty():
        e = self.excp_queue.get()
        raise e
    if not self.queue.empty():
        value = self.queue.get()
```

One poll cycle is modelled on a snapshot of both queues; `none` means
the loop keeps blocking. -/

/-- One poll cycle of the activation wait loop in `set_recv_fn`. -/
def pollActs {E A : Type} (excpQueue : List E) (actsQueue : List A) :
    Option (Except E A) :=
  match excpQueue with
  | e :: _ => some (.error e)
  | [] =>
    match actsQueue with
    | a :: _ => some (.ok a)
    | [] => none

/-- One poll cycle of the gradient wait loop in the `recv` closure
installed by `set_recv_fn`. -/
def pollGrads {E G : Type} (excpQueue : List E) (gradsQueue : List G) :
    Option (Except E G) :=
  match excpQueue with
  | e :: _ => some (.error e)
  | [] =>
    match gradsQueue with
    | g :: _ => some (.ok g)
    | [] => none

/-- C3: each blocking-poll loop of the compute thread (activations and
gradients) checks the shared exception channel before re-polling its own
queue: a pending failure is re-raised within one poll cycle regardless
of whether data is available on the loop's own queue, and only with the
channel empty does the loop pop its own queue or keep blocking. -/
theorem C3_exception_channel_polling {E A G : Type} :
    (∀ (e : E) (rest : List E) (q : List A),
      pollActs (e :: rest) q = some (Except.error e)) ∧
    (∀ (e : E) (rest : List E) (q : List G),
      pollGrads (e :: rest) q = some (Except.error e)) ∧
    (∀ (a : A) (q : List A), pollActs ([] : List E) (a :: q) = some (Except.ok a)) ∧
    (∀ (g : G) (q : List G), pollGrads ([] : List E) (g :: q) = some (Except.ok g)) ∧
    pollActs ([] : List E) ([] : List A) = none ∧
    pollGrads ([] : List E) ([] : List G) = none :=
  ⟨fun _ _ _ => rfl, fun _ _ _ => rfl, fun _ _ => rfl, fun _ _ => rfl, rfl, rfl⟩

/-! ## The `recompute` wiring between `Pipeline` and `PartitionedModel`
(src/varuna/varuna.py `set_model_send_fn`/`set_model_recv_fn`;
src/varuna/partitioned_model.py `set_send_fn`/`set_recv_fn`)

`Pipeline.set_model_send_fn` defines a local closure `send` and calls
`self.partitioned_model.set_send_fn(send)` — but `set_send_fn`'s one
parameter is `recompute`, so the closure lands in `recompute` position
and is never installed; likewise for `set_model_recv_fn` and
`set_recv_fn(recv)`.  Python truthiness of the argument then decides
the branches inside `PartitionedModel`'s own closures. -/

/-- A Python value in `recompute` position: the default `False`, a
bool, or a function object (identified by a tag). -/
inductive PyVal where
  | bool : Bool → PyVal
  | func : Nat → PyVal
  deriving DecidableEq

/-- Python truthiness: a function object is always truthy. -/
def truthy : PyVal → Bool
  | .bool b => b
  | .func _ => true

/-- The queues and RNG state of a `PartitionedModel` (as installed by
`set_queues`). -/
structure PMState where
  actsSendQueue : List (List Nat)
  gradsSendQueue : List (List Nat)
  recomputeQueue : List (Nat × Option (List Nat))
  actsQueue : List (List Nat)
  excpQueue : List String
  rng : Nat
  deriving DecidableEq

/-- The internal `send` closure of `PartitionedModel.set_send_fn`
(non-trimmed path): gradients always go to the gradient send queue;
activations go to the activation send queue only when `recompute` is
falsy. -/
def pmSendFn (recompute : PyVal) (tensors : List Nat) (grads : Bool)
    (st : PMState) : PMState :=
  if grads then { st with gradsSendQueue := st.gradsSendQueue ++ [tensors] }
  else if truthy recompute then st
  else { st with actsSendQueue := st.actsSendQueue ++ [tensors] }

/-- Outcome of the head of `PartitionedModel.set_recv_fn`. -/
inductive RecvOutcome where
  | blocked
  | raised (e : String)
  | got (st : PMState) (acts : Option (List Nat))
  deriving DecidableEq

/-- The head of `PartitionedModel.set_recv_fn`: with truthy `recompute`
it pops the recomputation queue and restores the saved RNG state;
otherwise (on a non-first stage) it runs the exception-checking poll
loop on the activation queue. -/
def pmSetRecvFn (recompute : PyVal) (stage : Nat) (st : PMState) :
    RecvOutcome :=
  if truthy recompute then
    match st.recomputeQueue with
    | [] => .blocked
    | (r, a) :: rest => .got { st with recomputeQueue := rest, rng := r } a
  else if 0 < stage then
    match pollActs st.excpQueue st.actsQueue with
    | none => .blocked
    | some (.error e) => .raised e
    | some (.ok a) => .got { st with actsQueue := st.actsQueue.tail } (some a)
  else .got st none

/-- The function `Pipeline.set_model_send_fn` actually causes to be
installed: `PartitionedModel`'s internal closure, with `recompute`
bound to the pipeline's local `send` function object. -/
def pipelineInstalledSendFn (st : PMState) (tensors : List Nat)
    (grads : Bool) : PMState :=
  pmSendFn (PyVal.func 0) tensors grads st

/-- What `Pipeline.set_model_recv_fn`'s call
`set_recv_fn(recv)` makes `PartitionedModel.set_recv_fn` do:
`recompute` is bound to the pipeline's local `recv` function object. -/
def pipelineInstalledRecv (stage : Nat) (st : PMState) : RecvOutcome :=
  pmSetRecvFn (PyVal.func 1) stage st

/-- C10: the pipeline's local send/recv closures land in the
`recompute` parameter of `PartitionedModel.set_send_fn`/`set_recv_fn`,
a function object is truthy, so the installed send function (the
partitioned model's own internal closure) never enqueues activations on
`acts_send_queue`, and every such `set_recv_fn` call takes the
recomputation branch, popping the partitioned model's
`recompute_queue` — blocking on it even when activations are
available. -/
theorem C10_recompute_parameter_wiring :
    (∀ v, truthy (PyVal.func v) = true) ∧
    (∀ st t g, pipelineInstalledSendFn st t g = pmSendFn (PyVal.func 0) t g st) ∧
    (∀ st t, pipelineInstalledSendFn st t false = st) ∧
    (∀ st t, pipelineInstalledSendFn st t true =
      { st with gradsSendQueue := st.gradsSendQueue ++ [t] }) ∧
    (∀ stage st r a rest, st.recomputeQueue = (r, a) :: rest →
      pipelineInstalledRecv stage st =
        RecvOutcome.got { st with recomputeQueue := rest, rng := r } a) ∧
    (∀ stage st, st.recomputeQueue = [] →
      pipelineInstalledRecv stage st = RecvOutcome.blocked) := by
  refine ⟨fun _ => rfl, fun _ _ _ => rfl, fun _ _ => rfl, fun _ _ => rfl,
    ?_, ?_⟩
  · intro stage st r a rest h
    unfold pipelineInstalledRecv pmSetRecvFn
    rw [show truthy (PyVal.func 1) = true from rfl]
    simp only [if_true, h]
  · intro stage st h
    unfold pipelineInstalledRecv pmSetRecvFn
    rw [show truthy (PyVal.func 1) = true from rfl]
    simp only [if_true, h]

/-- Witness for C10: with a pending recomputation context the installed
receive pops it (even though an activation is queued), and with an empty
recomputation queue it blocks despite available activations. -/
theorem C10_recompute_parameter_wiring_witness :
    pipelineInstalledRecv 1
        ⟨[], [], [(7, some [5])], [[9]], [], 0⟩ =
      RecvOutcome.got ⟨[], [], [], [[9]], [], 7⟩ (some [5]) ∧
    pipelineInstalledRecv 1 ⟨[], [], [], [[9]], [], 0⟩ =
      RecvOutcome.blocked :=
  ⟨C10_recompute_parameter_wiring.2.2.2.2.1 1
      ⟨[], [], [(7, some [5])], [[9]], [], 0⟩ 7 (some [5]) [] rfl,
   C10_recompute_parameter_wiring.2.2.2.2.2 1
      ⟨[], [], [], [[9]], [], 0⟩ rfl⟩

/-! ## `Pipeline.run` and `Pipeline.worker` (src/varuna/varuna.py)

The compute loop of `Pipeline.run` walks the schedule of
`(task, microbatch)` pairs (task 0 = FORWARD, 1 = RECOMPUTE,
2 = BACKWARD).  A FORWARD is run in gradient mode exactly when
`self.schedule[index+1][0] == 2`; `schedule[index+1]` on a trailing
FORWARD is a Python `IndexError`.  `Pipeline.worker` then drives the
stage; queue blocking and run-time errors are `Option` failures.

Abstractions: a microbatch input and an activation payload are `Nat`
identifiers; running the stage maps the current RNG state through an
arbitrary `modelRng` and yields the loss tensor of the stage as a
`(shape, value)` pair through an arbitrary `modelLoss`; `backward`
calls are recorded as events, with the explicit gradient argument
(`torch.ones(self.loss.size())` on non-final stages) as a
constant-filled tensor.  The `no_sync` wrapper for data parallelism
does not change any modelled state and is omitted. -/

/-- Static data of one `Pipeline` invocation. -/
structure PipeCfg where
  stage : Nat
  partitions : Nat
  batches : List Nat
  chunks : Nat
  modelLoss : Nat → Option Nat → List Nat × ℚ
  modelRng : Nat → Nat

/-- A recorded `backward` invocation: the explicit gradient argument
(if any) and the loss value it was invoked on. -/
inductive BEvent where
  | backward (grad : Option ConstTensor) (lossVal : ℚ)
  deriving DecidableEq

/-- Mutable state of the pipeline compute thread. -/
structure PipeState where
  gradEnabled : Bool
  rng : Nat
  actsQueue : List Nat
  recomputeQueue : List (Nat × Option Nat)
  loss : Option (List Nat × ℚ)
  averageLoss : ℚ
  events : List BEvent
  deriving DecidableEq

/-- Embedding of `Pipeline.worker`.  Task 0: set the gradient mode,
capture the RNG states when not tracking gradients, receive the
boundary activations (`set_model_recv_fn(recompute=False)` pops
`acts_queue` on a non-first stage), run the stage, and either enqueue
`(rng_states, acts)` on the recomputation queue (no-grad) or retain the
output as the pending loss (grad).  Task 1: enable gradients, pop the
recomputation queue, restore the saved RNG state, re-run the forward,
retain the loss.  Task 2: `backward` with a unit gradient of the
retained output's shape on a non-final stage; on the final stage divide
the retained loss by the microbatch count, accumulate it into
`average_loss`, and `backward` without an explicit gradient. -/
def worker (cfg : PipeCfg) (task : Nat) (gradMode : Bool) (input : Nat)
    (s : PipeState) : Option PipeState :=
  if task = 0 then
    let s1 := { s with gradEnabled := gradMode }
    let rngStates : Option Nat := if gradMode = false then some s1.rng else none
    match (if 0 < cfg.stage then
             match s1.actsQueue with
             | [] => none
             | a :: rest => some (some a, rest)
           else some (none, s1.actsQueue) :
           Option (Option Nat × List Nat)) with
    | none => none
    | some (acts, restQ) =>
      let s2 := { s1 with actsQueue := restQ }
      let output := cfg.modelLoss input acts
      let s3 := { s2 with rng := cfg.modelRng s2.rng }
      if gradMode = false then
        some { s3 with recomputeQueue :=
          s3.recomputeQueue ++ [(rngStates.getD 0, acts)] }
      else
        some { s3 with loss := some output }
  else if task = 1 then
    let s1 := { s with gradEnabled := true }
    match s1.recomputeQueue with
    | [] => none
    | (r, a) :: rest =>
      let s2 := { s1 with recomputeQueue := rest, rng := r }
      let output := cfg.modelLoss input a
      let s3 := { s2 with rng := cfg.modelRng s2.rng }
      some { s3 with loss := some output }
  else
    match s.loss with
    | none => none
    | some (sh, v) =>
      if cfg.stage ≠ cfg.partitions - 1 then
        some { s with
                loss := none,
                events := s.events ++ [BEvent.backward (some (torchOnes sh)) v] }
      else
        some { s with
                loss := none,
                averageLoss := s.averageLoss + v / (cfg.chunks : ℚ),
                events := s.events ++ [BEvent.backward none (v / (cfg.chunks : ℚ))] }

/-- The gradient-mode computation of `Pipeline.run`:
`grad_mode = False; if task[0] == 0: if schedule[index+1][0] == 2:
grad_mode = True`, with `none` for the `IndexError` on a trailing
forward. -/
def gradModeNext (task : Nat) (rest : List (Nat × Nat)) : Option Bool :=
  if task = 0 then rest.head?.map (fun e => decide (e.1 = 2))
  else some false

/-- The schedule walk of `Pipeline.run`. -/
def runAux (cfg : PipeCfg) : List (Nat × Nat) → PipeState → Option PipeState
  | [], s => some s
  | (t, mi) :: rest, s =>
    match gradModeNext t rest with
    | none => none
    | some gm =>
      match cfg.batches[mi]? with
      | none => none
      | some input =>
        match worker cfg t gm input s with
        | none => none
        | some s' => runAux cfg rest s'

/-- `Pipeline.run`: walk the schedule and return `self.average_loss`. -/
def runPipeline (cfg : PipeCfg) (schedule : List (Nat × Nat))
    (s : PipeState) : Option ℚ :=
  (runAux cfg schedule s).map (fun s' => s'.averageLoss)

/-- C1: in `Pipeline.run` a FORWARD task runs under gradient tracking
exactly when the next schedule entry is a BACKWARD (and a trailing
FORWARD is an index error); a FORWARD without gradient tracking
captures the RNG state *before* running the stage and enqueues the pair
(rng-states, received boundary activations) on the recomputation queue,
leaving the pending loss unset; a FORWARD with gradient tracking
retains the output as the pending loss; and a RECOMPUTE task dequeues
the saved pair and restores the saved RNG state before re-running the
forward under gradient tracking (the stage runs from the restored
state `r`, not from the current one). -/
theorem C1_forward_recompute_rng :
    (∀ (t2 : Nat) (m2 : Nat) (rest : List (Nat × Nat)),
      (gradModeNext 0 ((t2, m2) :: rest) = some true ↔ t2 = 2)) ∧
    (gradModeNext 0 [] = none) ∧
    (∀ (cfg : PipeCfg) (mi : Nat) (next : Nat × Nat) (rest : List (Nat × Nat))
        (s : PipeState) (input : Nat), cfg.batches[mi]? = some input →
      runAux cfg ((0, mi) :: next :: rest) s =
        match worker cfg 0 (decide (next.1 = 2)) input s with
        | none => none
        | some s' => runAux cfg (next :: rest) s') ∧
    (∀ (cfg : PipeCfg) (mi : Nat) (s : PipeState),
      runAux cfg [(0, mi)] s = none) ∧
    (∀ (cfg : PipeCfg) (input : Nat) (s : PipeState) (a : Nat) (rest : List Nat),
      0 < cfg.stage → s.actsQueue = a :: rest →
      worker cfg 0 false input s =
        some { s with
                gradEnabled := false,
                actsQueue := rest,
                rng := cfg.modelRng s.rng,
                recomputeQueue := s.recomputeQueue ++ [(s.rng, some a)] }) ∧
    (∀ (cfg : PipeCfg) (input : Nat) (s : PipeState),
      cfg.stage = 0 →
      worker cfg 0 false input s =
        some { s with
                gradEnabled := false,
                rng := cfg.modelRng s.rng,
                recomputeQueue := s.recomputeQueue ++ [(s.rng, none)] }) ∧
    (∀ (cfg : PipeCfg) (input : Nat) (s : PipeState) (a : Nat) (rest : List Nat),
      0 < cfg.stage → s.actsQueue = a :: rest →
      worker cfg 0 true input s =
        some { s with
                gradEnabled := true,
                actsQueue := rest,
                rng := cfg.modelRng s.rng,
                loss := some (cfg.modelLoss input (some a)) }) ∧
    (∀ (cfg : PipeCfg) (input : Nat) (s : PipeState) (r : Nat) (a : Option Nat)
        (rest : List (Nat × Option Nat)),
      s.recomputeQueue = (r, a) :: rest →
      worker cfg 1 false input s =
        some { s with
                gradEnabled := true,
                recomputeQueue := rest,
                rng := cfg.modelRng r,
                loss := some (cfg.modelLoss input a) }) := by
  refine ⟨?_, rfl, ?_, ?_, ?_, ?_, ?_, ?_⟩
  · intro t2 m2 rest
    simp [gradModeNext]
  · intro cfg mi next rest s input h
    conv_lhs => rw [runAux]
    simp only [gradModeNext, if_pos rfl, List.head?_cons, Option.map_some, h]
    simp
  · intro cfg mi s
    rfl
  · intro cfg input s a rest hstage h
    simp [worker, hstage, h]
  · intro cfg input s hstage
    simp [worker, hstage]
  · intro cfg input s a rest hstage h
    simp [worker, hstage, h]
  · intro cfg input s r a rest h
    simp [worker, h]

theorem worker_forward_grad (cfg : PipeCfg) (input : Nat) (s : PipeState)
    (a : Nat) (rest : List Nat) (hstage : 0 < cfg.stage)
    (h : s.actsQueue = a :: rest) :
    worker cfg 0 true input s =
      some { s with
              gradEnabled := true,
              actsQueue := rest,
              rng := cfg.modelRng s.rng,
              loss := some (cfg.modelLoss input (some a)) } := by
  simp [worker, hstage, h]

theorem worker_backward_nonfinal (cfg : PipeCfg) (input : Nat) (gm : Bool)
    (s : PipeState) (sh : List Nat) (v : ℚ)
    (hst : cfg.stage ≠ cfg.partitions - 1) (h : s.loss = some (sh, v)) :
    worker cfg 2 gm input s =
      some { s with
              loss := none,
              events := s.events ++ [BEvent.backward (some (torchOnes sh)) v] } := by
  simp [worker, hst, h]

theorem worker_backward_final (cfg : PipeCfg) (input : Nat) (gm : Bool)
    (s : PipeState) (sh : List Nat) (v : ℚ)
    (hst : cfg.stage = cfg.partitions - 1) (h : s.loss = some (sh, v)) :
    worker cfg 2 gm input s =
      some { s with
              loss := none,
              averageLoss := s.averageLoss + v / (cfg.chunks : ℚ),
              events := s.events ++ [BEvent.backward none (v / (cfg.chunks : ℚ))] } := by
  simp [worker, hst, h]

/-- Running the alternating forward/backward schedule of the final
stage accumulates the scaled per-microbatch losses into
`average_loss`. -/
theorem runAux_alt (cfg : PipeCfg) (hst : cfg.stage = cfg.partitions - 1)
    (hpos : 0 < cfg.stage) :
    ∀ (idxs : List Nat) (s : PipeState),
      (∀ i ∈ idxs, i < cfg.batches.length) →
      idxs.length ≤ s.actsQueue.length →
      (runAux cfg ((idxs.map
            (fun i => [((0 : Nat), i), ((2 : Nat), i)])).flatten) s).map
          (fun s' => s'.averageLoss) =
        some (s.averageLoss +
          ((idxs.zip s.actsQueue).map (fun p =>
            (cfg.modelLoss (cfg.batches.getD p.1 0) (some p.2)).2 /
              (cfg.chunks : ℚ))).sum)
  | [], s, _, _ => by simp [runAux]
  | i :: rest, s, hin, hlen => by
    rcases hq : s.actsQueue with _ | ⟨a, q⟩
    · rw [hq] at hlen; simp at hlen
    · have hib : i < cfg.batches.length := hin i (by simp)
      have hb : cfg.batches[i]? = some (cfg.batches.getD i 0) := by
        rw [List.getElem?_eq_getElem hib, List.getD_eq_getElem cfg.batches 0 hib]
      have hflat : ((i :: rest).map
          (fun i => [((0 : Nat), i), ((2 : Nat), i)])).flatten =
          (0, i) :: (2, i) :: ((rest.map
            (fun i => [((0 : Nat), i), ((2 : Nat), i)])).flatten) := by
        simp
      rw [hflat]
      conv_lhs => rw [runAux]
      have hgm : gradModeNext 0 ((2, i) :: ((rest.map
          (fun i => [((0 : Nat), i), ((2 : Nat), i)])).flatten)) = some true := by
        simp [gradModeNext]
      rw [hgm, hb]
      dsimp only
      rw [worker_forward_grad cfg _ s a q hpos hq]
      dsimp only
      set s1 : PipeState :=
        { s with
            gradEnabled := true,
            actsQueue := q,
            rng := cfg.modelRng s.rng,
            loss := some (cfg.modelLoss (cfg.batches.getD i 0) (some a)) }
        with hs1
      conv_lhs => rw [runAux]
      have hgm2 : gradModeNext 2 ((rest.map
          (fun i => [((0 : Nat), i), ((2 : Nat), i)])).flatten) = some false := by
        simp [gradModeNext]
      rcases hml : cfg.modelLoss (cfg.batches.getD i 0) (some a) with ⟨sh, v⟩
      have hs1loss : s1.loss = some (sh, v) := by
        rw [hs1]
        dsimp only
        rw [hml]
      rw [hgm2, hb]
      dsimp only
      rw [worker_backward_final cfg _ false s1 sh v hst hs1loss]
      dsimp only
      have hrec := runAux_alt cfg hst hpos rest
        { s1 with
            loss := none,
            averageLoss := s1.averageLoss + v / (cfg.chunks : ℚ),
            events := s1.events ++ [BEvent.backward none (v / (cfg.chunks : ℚ))] }
        (fun j hj => hin j (by simp [hj]))
        (by
          rw [hq] at hlen
          simp only [List.length_cons] at hlen
          simpa [hs1] using Nat.le_of_succ_le_succ hlen)
      rw [hrec]
      simp only [hs1, hq, List.zip_cons_cons, List.map_cons, List.sum_cons, hml]
      congr 1
      ring

/-- C7: a BACKWARD task on a non-final stage invokes `backward` with a
unit (all-ones) gradient of the retained output's shape; the final
stage divides the retained loss by the number of microbatches before
invoking `backward` and accumulates the scaled values; and
`Pipeline.run` on the final stage returns the sum of the scaled
per-microbatch losses — the averaged loss of the batch. -/
theorem C7_backward_loss_averaging :
    (∀ (cfg : PipeCfg) (input : Nat) (gm : Bool) (s : PipeState)
        (sh : List Nat) (v : ℚ),
      cfg.stage ≠ cfg.partitions - 1 → s.loss = some (sh, v) →
      worker cfg 2 gm input s =
        some { s with
                loss := none,
                events := s.events ++
                  [BEvent.backward (some (torchOnes sh)) v] }) ∧
    (∀ (cfg : PipeCfg) (input : Nat) (gm : Bool) (s : PipeState)
        (sh : List Nat) (v : ℚ),
      cfg.stage = cfg.partitions - 1 → s.loss = some (sh, v) →
      worker cfg 2 gm input s =
        some { s with
                loss := none,
                averageLoss := s.averageLoss + v / (cfg.chunks : ℚ),
                events := s.events ++
                  [BEvent.backward none (v / (cfg.chunks : ℚ))] }) ∧
    (∀ (cfg : PipeCfg) (s : PipeState),
      cfg.stage = cfg.partitions - 1 → 0 < cfg.stage →
      cfg.batches.length ≤ s.actsQueue.length →
      s.averageLoss = 0 →
      runPipeline cfg
          (((List.range cfg.batches.length).map
            (fun i => [((0 : Nat), i), ((2 : Nat), i)])).flatten) s =
        some ((((List.range cfg.batches.length).zip s.actsQueue).map (fun p =>
          (cfg.modelLoss (cfg.batches.getD p.1 0) (some p.2)).2 /
            (cfg.chunks : ℚ))).sum)) := by
  refine ⟨?_, ?_, ?_⟩
  · intro cfg input gm s sh v hst h
    exact worker_backward_nonfinal cfg input gm s sh v hst h
  · intro cfg input gm s sh v hst h
    exact worker_backward_final cfg input gm s sh v hst h
  · intro cfg s hst hpos hlen havg
    unfold runPipeline
    rw [runAux_alt cfg hst hpos (List.range cfg.batches.length) s
      (fun i hi => List.mem_range.mp hi) (by simpa using hlen), havg]
    rw [zero_add]

/-- A two-stage pipeline configuration seen from its final stage
(stage 1 of 2), with one microbatch. -/
def sampleCfg : PipeCfg :=
  ⟨1, 2, [3], 1, fun i _ => ([2, 2], (i : ℚ)), fun r => r + 1⟩

/-- The same pipeline seen from its non-final stage (stage 0 of 2). -/
def sampleMidCfg : PipeCfg :=
  ⟨0, 2, [3], 1, fun i _ => ([2, 2], (i : ℚ)), fun r => r + 1⟩

/-- A final-stage configuration with two microbatches, for the run-level
loss sum. -/
def sampleRunCfg : PipeCfg :=
  ⟨1, 2, [3, 4], 2, fun i _ => ([1], (i : ℚ)), fun r => r⟩

/-- A compute-thread state with one queued boundary activation. -/
def sampleState : PipeState := ⟨true, 10, [42], [], none, 0, []⟩

/-- Witness for C1: a no-grad FORWARD captures RNG state 10, advances
it to 11 while running the stage, and enqueues `(10, acts 42)`; a
RECOMPUTE pops the saved pair `(7, acts 42)` and re-runs the forward
from the restored state 7 (ending at 8) under gradient tracking. -/
theorem C1_forward_recompute_rng_witness :
    worker sampleCfg 0 false 3 sampleState =
      some ⟨false, 11, [], [(10, some 42)], none, 0, []⟩ ∧
    worker sampleCfg 1 false 3 ⟨true, 10, [], [(7, some 42)], none, 0, []⟩ =
      some ⟨true, 8, [], [], some ([2, 2], 3), 0, []⟩ ∧
    runAux sampleCfg [(0, 0), (2, 0)] sampleState =
      (match worker sampleCfg 0 (decide (((2 : Nat), (0 : Nat)).1 = 2)) 3
          sampleState with
       | none => none
       | some s' => runAux sampleCfg [(2, 0)] s') :=
  ⟨C1_forward_recompute_rng.2.2.2.2.1 sampleCfg 3 sampleState 42 []
      (by decide) rfl,
   C1_forward_recompute_rng.2.2.2.2.2.2.2 sampleCfg 3
      ⟨true, 10, [], [(7, some 42)], none, 0, []⟩ 7 (some 42) [] rfl,
   C1_forward_recompute_rng.2.2.1 sampleCfg 0 (2, 0) [] sampleState 3 rfl⟩

/-- Witness for C7: the non-final stage backs off a unit gradient of
the loss's shape; the final stage divides by the chunk count and
accumulates; and a two-microbatch run returns the averaged loss
`(3 + 4) / 2`. -/
theorem C7_backward_loss_averaging_witness :
    worker sampleMidCfg 2 false 3 ⟨true, 10, [], [], some ([2, 2], 5), 0, []⟩ =
      some { (⟨true, 10, [], [], some ([2, 2], 5), 0, []⟩ : PipeState) with
              loss := none,
              events := [BEvent.backward (some (torchOnes [2, 2])) 5] } ∧
    worker sampleCfg 2 false 3 ⟨true, 10, [], [], some ([2, 2], 5), 0, []⟩ =
      some { (⟨true, 10, [], [], some ([2, 2], 5), 0, []⟩ : PipeState) with
              loss := none,
              averageLoss := 0 + (5 : ℚ) / ((1 : Nat) : ℚ),
              events := [BEvent.backward none ((5 : ℚ) / ((1 : Nat) : ℚ))] } ∧
    runPipeline sampleRunCfg [(0, 0), (2, 0), (0, 1), (2, 1)]
        ⟨true, 0, [100, 101], [], none, 0, []⟩ = some ((7 : ℚ) / 2) :=
  ⟨C7_backward_loss_averaging.1 sampleMidCfg 3 false
      ⟨true, 10, [], [], some ([2, 2], 5), 0, []⟩ [2, 2] 5 (by decide) rfl,
   C7_backward_loss_averaging.2.1 sampleCfg 3 false
      ⟨true, 10, [], [], some ([2, 2], 5), 0, []⟩ [2, 2] 5 (by decide) rfl,
   (C7_backward_loss_averaging.2.2 sampleRunCfg
      ⟨true, 0, [100, 101], [], none, 0, []⟩ (by decide) (by decide)
      (by decide) rfl).trans (by
      simp [sampleRunCfg, List.range_succ]
      norm_num)⟩

end Varuna
